import Mathlib

/-!
Verification of the `type_erased_vec` crate (`src/lib.rs`).

The crate's `TypeErasedVec` stores the raw parts of a `Vec` — pointer,
length, capacity, element `Layout` — together with an `Option`al allocator
whose absence marks the "leaked" (checked-out) state.

The embedding models the heap as an association list of allocated cells
(identifier × byte contents) plus a freshness counter.  A machine pointer
is either a cell identifier or a dangling marker.  The erased element type
is represented by a `TypeRep`: its size, alignment and a byte encoding.
The standard-library `Vec` collaborator (construction, raw-parts
conversion, `push` with growth) is modelled from its documented behaviour;
the spec keeps its growth policy out of scope.
-/

/-- A byte of memory.  The model does not bound byte values: all stored
bytes come from `TypeRep` encodings. -/
abbrev Byte := Nat

/-- Value of `usize::MAX` on a 64-bit target. -/
def usizeMax : Nat := 2 ^ 64 - 1

/-- Model of `std::alloc::Layout`: size and alignment in bytes. -/
structure Layout where
  size : Nat
  align : Nat
deriving DecidableEq

/-- A machine pointer: either backed by a live heap cell, or the dangling
well-aligned placeholder `NonNull::dangling()` used when there is no
backing allocation. -/
inductive Ptr where
  | dangling (align : Nat)
  | cell (id : Nat)
deriving DecidableEq

/-- Lookup of the first cell with the given identifier. -/
def cellsLookup : List (Nat × List Byte) → Nat → Option (List Byte)
  | [], _ => none
  | c :: cs, i => if c.1 = i then some c.2 else cellsLookup cs i

/-- Replaces the contents of every cell with the given identifier. -/
def cellsUpdate : List (Nat × List Byte) → Nat → List Byte → List (Nat × List Byte)
  | [], _, _ => []
  | c :: cs, i, bytes =>
    if c.1 = i then (i, bytes) :: cellsUpdate cs i bytes else c :: cellsUpdate cs i bytes

/-- Removes every cell with the given identifier. -/
def cellsRemove : List (Nat × List Byte) → Nat → List (Nat × List Byte)
  | [], _ => []
  | c :: cs, i => if c.1 = i then cellsRemove cs i else c :: cellsRemove cs i

/-- The heap: live allocations (cell identifier × byte contents) and a
counter from which fresh identifiers are drawn. -/
structure Heap where
  cells : List (Nat × List Byte)
  next : Nat
deriving DecidableEq

/-- Contents of the cell behind identifier `i`, if live. -/
def Heap.lookup (h : Heap) (i : Nat) : Option (List Byte) :=
  cellsLookup h.cells i

/-- Allocates a fresh cell holding the given bytes (allocation plus the
initialising write, as one step). -/
def Heap.allocWith (h : Heap) (bytes : List Byte) : Heap × Nat :=
  (⟨(h.next, bytes) :: h.cells, h.next + 1⟩, h.next)

/-- Allocates a fresh cell of `sz` uninitialised bytes (modelled as zeros). -/
def Heap.alloc (h : Heap) (sz : Nat) : Heap × Nat :=
  h.allocWith (List.replicate sz 0)

/-- Overwrites the contents of cell `i`. -/
def Heap.update (h : Heap) (i : Nat) (bytes : List Byte) : Heap :=
  ⟨cellsUpdate h.cells i bytes, h.next⟩

/-- Deallocates cell `i`. -/
def Heap.remove (h : Heap) (i : Nat) : Heap :=
  ⟨cellsRemove h.cells i, h.next⟩

/-- Bytes a pointer gives access to: the backing cell's contents, nothing
for a dangling pointer. -/
def Heap.bytesAt (h : Heap) : Ptr → Option (List Byte)
  | Ptr.dangling _ => none
  | Ptr.cell i => h.lookup i

/-- Well-formedness: every live cell identifier is below the freshness
counter. -/
def Heap.wf (h : Heap) : Prop :=
  ∀ c ∈ h.cells, c.1 < h.next

instance (h : Heap) : Decidable h.wf := by
  unfold Heap.wf; infer_instance

/-- Writing `xs` into `bytes` at byte offset `off`. -/
def writeBytes (bytes : List Byte) (off : Nat) (xs : List Byte) : List Byte :=
  bytes.take off ++ xs ++ bytes.drop (off + xs.length)

theorem cellsLookup_update_self {cs : List (Nat × List Byte)} {i : Nat}
    {old : List Byte} (h : cellsLookup cs i = some old) (bytes : List Byte) :
    cellsLookup (cellsUpdate cs i bytes) i = some bytes := by
  induction cs with
  | nil => simp [cellsLookup] at h
  | cons c cs ih =>
    by_cases hc : c.1 = i
    · simp [cellsUpdate, hc, cellsLookup]
    · simp only [cellsLookup, if_neg hc] at h
      simp [cellsUpdate, hc, cellsLookup, ih h]

theorem cellsLookup_update_ne {cs : List (Nat × List Byte)} {i j : Nat}
    (hne : j ≠ i) (bytes : List Byte) :
    cellsLookup (cellsUpdate cs i bytes) j = cellsLookup cs j := by
  induction cs with
  | nil => simp [cellsUpdate, cellsLookup]
  | cons c cs ih =>
    by_cases hc : c.1 = i
    · simp [cellsUpdate, hc, cellsLookup, Ne.symm hne, hne, ih]
    · by_cases hcj : c.1 = j <;> simp [cellsUpdate, hc, cellsLookup, hcj, hne, ih]

theorem cellsLookup_remove_ne {cs : List (Nat × List Byte)} {i j : Nat}
    (hne : j ≠ i) : cellsLookup (cellsRemove cs i) j = cellsLookup cs j := by
  induction cs with
  | nil => simp [cellsRemove, cellsLookup]
  | cons c cs ih =>
    by_cases hc : c.1 = i
    · simp [cellsRemove, hc, cellsLookup, Ne.symm hne, hne, ih]
    · by_cases hcj : c.1 = j <;> simp [cellsRemove, hc, cellsLookup, hcj, hne, ih]

theorem cellsLookup_mem {i : Nat} {b : List Byte} :
    ∀ {cs : List (Nat × List Byte)}, cellsLookup cs i = some b → (i, b) ∈ cs := by
  intro cs
  induction cs with
  | nil => intro h; simp [cellsLookup] at h
  | cons c cs ih =>
    intro h
    by_cases hc : c.1 = i
    · simp only [cellsLookup, if_pos hc] at h
      obtain ⟨c1, c2⟩ := c
      simp at hc h
      simp [hc, h]
    · simp only [cellsLookup, if_neg hc] at h
      exact List.mem_cons_of_mem _ (ih h)

theorem cellsUpdate_keys (cs : List (Nat × List Byte)) (i : Nat)
    (bytes : List Byte) :
    (cellsUpdate cs i bytes).map Prod.fst = cs.map Prod.fst := by
  induction cs with
  | nil => simp [cellsUpdate]
  | cons d cs ih =>
    by_cases hd : d.1 = i
    · simp [cellsUpdate, hd, ih]
    · simp [cellsUpdate, hd, ih]

theorem cellsRemove_sublist (cs : List (Nat × List Byte)) (i : Nat) :
    List.Sublist (cellsRemove cs i) cs := by
  induction cs with
  | nil => simp [cellsRemove]
  | cons d cs ih =>
    by_cases hd : d.1 = i
    · simp only [cellsRemove, if_pos hd]
      exact List.Sublist.cons d ih
    · simp only [cellsRemove, if_neg hd]
      exact List.Sublist.cons₂ d ih

theorem Heap.lookup_isSome_lt {h : Heap} {i : Nat} (hwf : h.wf)
    {b : List Byte} (hl : h.lookup i = some b) : i < h.next :=
  hwf _ (cellsLookup_mem hl)

theorem Heap.wf_update {h : Heap} (hwf : h.wf) (i : Nat) (bytes : List Byte) :
    (h.update i bytes).wf := by
  intro c hc
  have hmem : c.1 ∈ (cellsUpdate h.cells i bytes).map Prod.fst :=
    List.mem_map_of_mem Prod.fst hc
  rw [cellsUpdate_keys] at hmem
  simp only [List.mem_map] at hmem
  obtain ⟨d, hd, hdc⟩ := hmem
  have := hwf d hd
  simpa [Heap.update, hdc] using this

theorem Heap.wf_remove {h : Heap} (hwf : h.wf) (i : Nat) : (h.remove i).wf := by
  intro c hc
  exact hwf c ((cellsRemove_sublist h.cells i).subset hc)

theorem Heap.wf_allocWith {h : Heap} (hwf : h.wf) (bytes : List Byte) :
    (h.allocWith bytes).1.wf := by
  intro c hc
  simp only [Heap.allocWith, List.mem_cons] at hc
  rcases hc with hc | hc
  · simp [hc, Heap.allocWith]
  · exact Nat.lt_succ_of_lt (hwf c hc)

theorem Heap.lookup_allocWith_new (h : Heap) (bytes : List Byte) :
    (h.allocWith bytes).1.lookup h.next = some bytes := by
  simp [Heap.allocWith, Heap.lookup, cellsLookup]

theorem Heap.lookup_allocWith_old {h : Heap} {i : Nat} (hne : i ≠ h.next)
    (bytes : List Byte) : (h.allocWith bytes).1.lookup i = h.lookup i := by
  simp [Heap.allocWith, Heap.lookup, cellsLookup, Ne.symm hne]

theorem length_writeBytes {bytes xs : List Byte} {off : Nat}
    (h : off + xs.length ≤ bytes.length) :
    (writeBytes bytes off xs).length = bytes.length := by
  simp only [writeBytes, List.length_append, List.length_take, List.length_drop]
  omega

theorem take_writeBytes {bytes xs : List Byte} {off : Nat}
    (h : off ≤ bytes.length) :
    (writeBytes bytes off xs).take (off + xs.length) = bytes.take off ++ xs := by
  have hlen : (bytes.take off).length = off := by
    simp [List.length_take]; omega
  have h2 : off + xs.length - off = xs.length := by omega
  simp only [writeBytes, List.append_assoc]
  rw [List.take_append_eq_append_take, List.take_of_length_le (by omega), hlen,
    List.take_append_eq_append_take, h2, List.take_length]
  simp

/-- Runtime representation of a `Copy` element type `T`: its `Layout`
(size and alignment) together with a faithful byte encoding.  `Copy`
types are plain bytes, so an encoding/decoding pair with the round-trip
law captures exactly what `slice::from_raw_parts` reads back. -/
structure TypeRep (T : Type) where
  size : Nat
  align : Nat
  enc : T → List Byte
  dec : List Byte → Option T
  enc_length : ∀ t, (enc t).length = size
  dec_enc : ∀ t, dec (enc t) = some t

/-- Concatenated byte image of a list of elements, in order. -/
def encodeElems {T : Type} (r : TypeRep T) : List T → List Byte
  | [] => []
  | x :: xs => r.enc x ++ encodeElems r xs

/-- Decoding of the first `n` elements from a byte region, `r.size` bytes
per element. -/
def decodeElems {T : Type} (r : TypeRep T) (bytes : List Byte) : Nat → Option (List T)
  | 0 => some []
  | n + 1 =>
    match r.dec (bytes.take r.size) with
    | some x =>
      match decodeElems r (bytes.drop r.size) n with
      | some xs => some (x :: xs)
      | none => none
    | none => none

/-- Raw parts of a `Vec<T, A>` as returned by `into_raw_parts_with_alloc`:
pointer, length and capacity.  (The allocator `Global` is modelled as
`Unit` and carried separately where the source moves it.) -/
structure RVec where
  ptr : Ptr
  len : Nat
  cap : Nat
deriving DecidableEq

/-- Modelled from the spec: the typed-array collaborator's `Vec::new_in`.
A fresh `Vec` holds no allocation and a dangling, aligned pointer; per the
standard library's documented guarantees its capacity is `0`, except for
zero-sized element types where it is `usize::MAX`. -/
def vecNew {T : Type} (r : TypeRep T) : RVec :=
  ⟨Ptr.dangling r.align, 0, if r.size = 0 then usizeMax else 0⟩

/-- Modelled from the spec: the typed-array collaborator's
`Vec::with_capacity_in`.  Allocates exactly the requested capacity; for a
zero-sized element type or a zero request no allocation is performed, and
a zero-sized element type reports capacity `usize::MAX`. -/
def vecWithCapacity {T : Type} (r : TypeRep T) (h : Heap) (n : Nat) : Heap × RVec :=
  if r.size = 0 then (h, ⟨Ptr.dangling r.align, 0, usizeMax⟩)
  else if n = 0 then (h, ⟨Ptr.dangling r.align, 0, 0⟩)
  else
    let p := h.allocWith (List.replicate (r.size * n) 0)
    (p.1, ⟨Ptr.cell p.2, 0, n⟩)

/-- Modelled from the spec: the typed-array collaborator's `Vec::push`.
A zero-sized element only bumps the length; otherwise the element is
written in place when there is spare capacity, and the buffer is grown
first when there is not (allocate the larger region, copy the `len`
initialised elements, free the old region).  The exact growth policy is
out of scope per the spec; it is modelled as doubling, which preserves
every property claimed. -/
def RVec.push {T : Type} (r : TypeRep T) (h : Heap) (v : RVec) (x : T) : Heap × RVec :=
  if r.size = 0 then
    (h, { v with len := v.len + 1 })
  else if v.len < v.cap then
    match v.ptr with
    | Ptr.cell i =>
      (h.update i (writeBytes ((h.lookup i).getD []) (r.size * v.len) (r.enc x)),
        { v with len := v.len + 1 })
    | Ptr.dangling _ => (h, v)
  else
    let newCap := max (2 * v.cap) (v.len + 1)
    let old := (h.bytesAt v.ptr).getD []
    let newBytes :=
      old.take (r.size * v.len) ++ r.enc x ++
        List.replicate (r.size * newCap - r.size * (v.len + 1)) 0
    let p := h.allocWith newBytes
    let h₂ :=
      match v.ptr with
      | Ptr.cell i => p.1.remove i
      | Ptr.dangling _ => p.1
    (h₂, ⟨Ptr.cell p.2, v.len + 1, newCap⟩)

/-- Pushing a list of values in order. -/
def pushMany {T : Type} (r : TypeRep T) (h : Heap) (v : RVec) : List T → Heap × RVec
  | [] => (h, v)
  | x :: xs =>
    let p := RVec.push r h v x
    pushMany r p.1 p.2 xs

/-- Elements a typed view over raw parts `v` reads from heap `h`
(`slice::from_raw_parts(ptr, len)`). -/
def vecElems {T : Type} (r : TypeRep T) (h : Heap) (v : RVec) : Option (List T) :=
  decodeElems r ((h.bytesAt v.ptr).getD []) v.len

/-- Model of `TypeErasedVec` (src/lib.rs, lines 64-77): the allocator is
only `none` after `get_mut`, until the `VecMut` destructor restores it. -/
structure TypeErasedVec where
  alloc : Option Unit
  ptr : Ptr
  len : Nat
  cap : Nat
  layout : Layout
deriving DecidableEq

/-- `TypeErasedVec::from_vec` (lines 91-100): takes the raw parts and the
allocator of `vec` and captures `Layout::new::<T>()`. -/
def TypeErasedVec.from_vec {T : Type} (r : TypeRep T) (v : RVec) : TypeErasedVec :=
  { alloc := some ()
    ptr := v.ptr
    len := v.len
    cap := v.cap
    layout := { size := r.size, align := r.align } }

/-- `TypeErasedVec::is_leaked` (lines 102-105): whether `alloc` is `None`. -/
def TypeErasedVec.is_leaked (tv : TypeErasedVec) : Bool :=
  tv.alloc.isNone

/-- `TypeErasedVec::into_vec` (lines 118-127): rebuilds the `Vec` from the
stored raw parts and the taken allocator (`unwrap` panics — `none` — when
leaked), then `forget(self)` disarms the destructor; the forgotten shell
is returned with `alloc` taken out. -/
def TypeErasedVec.into_vec (tv : TypeErasedVec) : Option (RVec × Unit × TypeErasedVec) :=
  match tv.alloc with
  | some a => some (⟨tv.ptr, tv.len, tv.cap⟩, a, { tv with alloc := none })
  | none => none

/-- `TypeErasedVec::get` (lines 138-141): asserts not leaked, then reads
the first `len` elements through `slice::from_raw_parts`. -/
def TypeErasedVec.get {T : Type} (tv : TypeErasedVec) (r : TypeRep T) (h : Heap) :
    Option (List T) :=
  if tv.is_leaked then none
  else decodeElems r ((h.bytesAt tv.ptr).getD []) tv.len

/-- Model of `VecMut` (lines 281-300): holds the `Vec` rebuilt from the
buffer's raw parts and the allocator taken out of the buffer.  (The
mutable borrow of the buffer and the `ManuallyDrop` wrapper are ownership
bookkeeping with no further functional content.) -/
structure VecMut where
  vec : RVec
  alloc : Unit
deriving DecidableEq

/-- `TypeErasedVec::get_mut` (lines 152-155) followed by `VecMut::new`
(lines 289-300): asserts not leaked, moves the raw parts and the
allocator into the view, and leaves the buffer with `alloc = None`. -/
def TypeErasedVec.get_mut (tv : TypeErasedVec) : Option (VecMut × TypeErasedVec) :=
  match tv.alloc with
  | some a => some (⟨⟨tv.ptr, tv.len, tv.cap⟩, a⟩, { tv with alloc := none })
  | none => none

/-- `impl Drop for VecMut` (lines 316-322): the buffer is overwritten with
`TypeErasedVec::from_vec` of the possibly modified `Vec`. -/
def VecMut.drop {T : Type} (vm : VecMut) (r : TypeRep T) : TypeErasedVec :=
  TypeErasedVec.from_vec r vm.vec

/-- `TypeErasedVec::allocator` (lines 162-165): asserts not leaked, then
returns the allocator. -/
def TypeErasedVec.allocator (tv : TypeErasedVec) : Option Unit :=
  if tv.is_leaked then none else tv.alloc

/-- `TypeErasedVec::memory` (lines 167-178): the layout of the backing
allocation — `Some` only when both the element size and the capacity are
nonzero, scaled as `layout.size() * cap` with the element alignment. -/
def TypeErasedVec.memory (tv : TypeErasedVec) : Option Layout :=
  if 0 < tv.layout.size ∧ 0 < tv.cap then
    some { size := tv.layout.size * tv.cap, align := tv.layout.align }
  else none

/-- `TypeErasedVec::get_ref` (lines 205-208) with `VecRef::new`
(lines 259-265): asserts not leaked, then rebuilds a non-owning `Vec`
from the raw parts (wrapped in `ManuallyDrop`, so nothing is freed). -/
def TypeErasedVec.get_ref (tv : TypeErasedVec) : Option RVec :=
  if tv.is_leaked then none else some ⟨tv.ptr, tv.len, tv.cap⟩

/-- `impl Drop for TypeErasedVec` (lines 211-219): deallocates through the
taken allocator only when `memory()` is `Some` and `alloc` is `Some`.
Returns the resulting heap together with a record of the `deallocate`
call made, if any. -/
def TypeErasedVec.drop (tv : TypeErasedVec) (h : Heap) : Heap × Option (Ptr × Layout) :=
  match tv.memory with
  | some m =>
    match tv.alloc with
    | some _ =>
      (match tv.ptr with
        | Ptr.cell i => h.remove i
        | Ptr.dangling _ => h,
        some (tv.ptr, m))
    | none => (h, none)
  | none => (h, none)

/-- `impl Clone for TypeErasedVec` (lines 221-250): asserts not leaked;
when `memory()` is `Some`, allocates a fresh region of that layout and
copies the first `len * layout.size()` bytes, otherwise uses a dangling
aligned pointer; length, capacity and layout are copied.  Returns the new
heap, the new buffer, and a record of the `allocate` call made, if any. -/
def TypeErasedVec.clone (tv : TypeErasedVec) (h : Heap) :
    Option (Heap × TypeErasedVec × Option (Nat × Layout)) :=
  if tv.is_leaked then none
  else some
    (match tv.memory with
    | some m =>
      let src := (h.bytesAt tv.ptr).getD []
      let copied := src.take (tv.len * tv.layout.size)
      let newBytes := copied ++ List.replicate (m.size - tv.len * tv.layout.size) 0
      let p := h.allocWith newBytes
      (p.1, ⟨some (), Ptr.cell p.2, tv.len, tv.cap, tv.layout⟩, some (p.2, m))
    | none =>
      (h, ⟨some (), Ptr.dangling tv.layout.align, tv.len, tv.cap, tv.layout⟩, none))

/-- `TypeErasedVec::new_in` (lines 81-83): `from_vec` of a fresh `Vec`. -/
def TypeErasedVec.new_in {T : Type} (r : TypeRep T) : TypeErasedVec :=
  TypeErasedVec.from_vec r (vecNew r)

/-- `TypeErasedVec::with_capacity_in` (lines 86-88): `from_vec` of
`Vec::with_capacity_in(capacity, alloc)`. -/
def TypeErasedVec.with_capacity_in {T : Type} (r : TypeRep T) (h : Heap) (n : Nat) :
    Heap × TypeErasedVec :=
  let p := vecWithCapacity r h n
  (p.1, TypeErasedVec.from_vec r p.2)

/-- `TypeErasedVec::new` (lines 183-185): `new_in` with `Global`. -/
def TypeErasedVec.new {T : Type} (r : TypeRep T) : TypeErasedVec :=
  TypeErasedVec.new_in r

/-- `TypeErasedVec::with_capacity` (lines 188-190): `with_capacity_in`
with `Global`. -/
def TypeErasedVec.with_capacity {T : Type} (r : TypeRep T) (h : Heap) (n : Nat) :
    Heap × TypeErasedVec :=
  TypeErasedVec.with_capacity_in r h n

/-- One full mutable session, as in the crate's `test_get_mut`: `get_mut`,
push every element of `xs` through the view, then run the view's
destructor, which writes the vector back into the buffer. -/
def mutateSession {T : Type} (r : TypeRep T) (h : Heap) (tv : TypeErasedVec)
    (xs : List T) : Option (Heap × TypeErasedVec) :=
  match tv.get_mut with
  | some (vm, _) =>
    let p := pushMany r h vm.vec xs
    some (p.1, VecMut.drop ⟨p.2, vm.alloc⟩ r)
  | none => none

theorem encodeElems_append {T : Type} (r : TypeRep T) (l₁ l₂ : List T) :
    encodeElems r (l₁ ++ l₂) = encodeElems r l₁ ++ encodeElems r l₂ := by
  induction l₁ with
  | nil => simp [encodeElems]
  | cons x xs ih => simp [encodeElems, ih]

theorem length_encodeElems {T : Type} (r : TypeRep T) (l : List T) :
    (encodeElems r l).length = r.size * l.length := by
  induction l with
  | nil => simp [encodeElems]
  | cons x xs ih =>
    simp only [encodeElems, List.length_append, List.length_cons, ih, r.enc_length,
      Nat.mul_succ]
    omega

theorem decodeElems_encode {T : Type} (r : TypeRep T) (l : List T) (rest : List Byte) :
    decodeElems r (encodeElems r l ++ rest) l.length = some l := by
  induction l generalizing rest with
  | nil => rfl
  | cons x xs ih =>
    have e1 : (r.enc x ++ (encodeElems r xs ++ rest)).take r.size = r.enc x := by
      conv_lhs => rw [← r.enc_length x]
      exact List.take_left _ _
    have e2 : (r.enc x ++ (encodeElems r xs ++ rest)).drop r.size = encodeElems r xs ++ rest := by
      conv_lhs => rw [← r.enc_length x]
      exact List.drop_left _ _
    simp [encodeElems, List.append_assoc, decodeElems, e1, e2, r.dec_enc, ih]

theorem TypeRep.enc_eq_nil {T : Type} (r : TypeRep T) (hz : r.size = 0) (t : T) :
    r.enc t = [] := by
  have := r.enc_length t
  rw [hz] at this
  exact List.length_eq_zero.1 this

theorem TypeRep.dec_nil {T : Type} (r : TypeRep T) (hz : r.size = 0) (t : T) :
    r.dec [] = some t := by
  have := r.dec_enc t
  rwa [r.enc_eq_nil hz] at this

theorem decodeElems_zst {T : Type} (r : TypeRep T) (hz : r.size = 0) (l : List T)
    (bytes : List Byte) : decodeElems r bytes l.length = some l := by
  induction l generalizing bytes with
  | nil => rfl
  | cons x xs ih =>
    simp [decodeElems, hz, r.dec_nil hz x, ih]

theorem take_len_append {α : Type} (a b c : List α) :
    (a ++ (b ++ c)).take (a.length + b.length) = a ++ b := by
  rw [List.take_append_eq_append_take, List.take_of_length_le (by omega)]
  congr 1
  have h2 : a.length + b.length - a.length = b.length := by omega
  rw [h2, List.take_left]

/-- Validity of raw parts `v` holding elements `l` in heap `h`: the length
counts the initialised elements, `len ≤ cap`, a zero-sized element type
has the documented `usize::MAX` capacity and a dangling pointer, a sized
type with no capacity has a dangling pointer, and a sized type with
capacity has a live backing cell of exactly `size * cap` bytes whose first
`size * len` bytes are the byte image of `l`. -/
def vecValid {T : Type} (r : TypeRep T) (h : Heap) (v : RVec) (l : List T) : Prop :=
  v.len = l.length ∧ v.len ≤ v.cap ∧
  (r.size = 0 → v.cap = usizeMax ∧ v.ptr = Ptr.dangling r.align) ∧
  (0 < r.size → v.cap = 0 → v.ptr = Ptr.dangling r.align) ∧
  (0 < r.size → 0 < v.cap →
    (h.bytesAt v.ptr).isSome = true ∧
    ((h.bytesAt v.ptr).getD []).length = r.size * v.cap ∧
    ((h.bytesAt v.ptr).getD []).take (r.size * v.len) = encodeElems r l)

instance {T : Type} [DecidableEq T] (r : TypeRep T) (h : Heap) (v : RVec) (l : List T) :
    Decidable (vecValid r h v l) := by
  unfold vecValid; infer_instance

/-- Validity of a non-leaked `TypeErasedVec` holding elements `l`: the
allocator is present, the layout is `Layout::new::<T>()`, and the raw
parts are valid. -/
def tevValid {T : Type} (r : TypeRep T) (h : Heap) (tv : TypeErasedVec) (l : List T) : Prop :=
  tv.alloc = some () ∧ tv.layout = { size := r.size, align := r.align } ∧
  vecValid r h ⟨tv.ptr, tv.len, tv.cap⟩ l

instance {T : Type} [DecidableEq T] (r : TypeRep T) (h : Heap) (tv : TypeErasedVec)
    (l : List T) : Decidable (tevValid r h tv l) := by
  unfold tevValid; infer_instance

theorem valid_take {T : Type} {r : TypeRep T} {h : Heap} {v : RVec} {l : List T}
    (hv : vecValid r h v l) (hpos : 0 < r.size) :
    ((h.bytesAt v.ptr).getD []).take (r.size * v.len) = encodeElems r l := by
  obtain ⟨h1, h2, _, _, h5⟩ := hv
  by_cases hc : v.cap = 0
  · have hlen0 : v.len = 0 := by omega
    have hl : l = [] := by
      cases l with
      | nil => rfl
      | cons a as => rw [hlen0] at h1; simp at h1
    rw [hlen0, hl]
    simp [encodeElems]
  · exact (h5 hpos (Nat.pos_of_ne_zero hc)).2.2

theorem vecElems_of_valid {T : Type} {r : TypeRep T} {h : Heap} {v : RVec} {l : List T}
    (hv : vecValid r h v l) : vecElems r h v = some l := by
  obtain ⟨h1, h2, h3, h4, h5⟩ := hv
  by_cases hz : r.size = 0
  · rw [vecElems, h1]
    exact decodeElems_zst r hz l _
  · have hpos : 0 < r.size := Nat.pos_of_ne_zero hz
    by_cases hc : v.cap = 0
    · have hlen0 : v.len = 0 := by omega
      have hl : l = [] := by
        cases l with
        | nil => rfl
        | cons a as => rw [hlen0] at h1; simp at h1
      rw [vecElems, hlen0, hl]
      rfl
    · obtain ⟨hs, hlenb, htake⟩ := h5 hpos (Nat.pos_of_ne_zero hc)
      have hsplit : (h.bytesAt v.ptr).getD [] =
          encodeElems r l ++ ((h.bytesAt v.ptr).getD []).drop (r.size * v.len) := by
        conv_lhs => rw [← List.take_append_drop (r.size * v.len) ((h.bytesAt v.ptr).getD [])]
        rw [htake]
      rw [vecElems, h1, hsplit]
      exact decodeElems_encode r l _

theorem get_of_valid {T : Type} {r : TypeRep T} {h : Heap} {tv : TypeErasedVec}
    {l : List T} (hv : tevValid r h tv l) : tv.get r h = some l := by
  obtain ⟨ha, hl, hvec⟩ := hv
  have := vecElems_of_valid hvec
  simpa [TypeErasedVec.get, TypeErasedVec.is_leaked, ha, vecElems] using this

theorem get_frame {T : Type} (r : TypeRep T) {h h' : Heap} (tv : TypeErasedVec)
    (hpres : ∀ c, tv.ptr = Ptr.cell c → h'.lookup c = h.lookup c) :
    tv.get r h' = tv.get r h := by
  cases hp : tv.ptr with
  | dangling a => simp [TypeErasedVec.get, Heap.bytesAt, hp]
  | cell c => simp [TypeErasedVec.get, Heap.bytesAt, hp, hpres c hp]

theorem encodeElems_singleton {T : Type} (r : TypeRep T) (x : T) :
    encodeElems r [x] = r.enc x := by
  simp [encodeElems]

theorem push_eq_zst {T : Type} {r : TypeRep T} (h : Heap) (v : RVec) (x : T)
    (hz : r.size = 0) :
    RVec.push r h v x = (h, { v with len := v.len + 1 }) := by
  simp [RVec.push, hz]

theorem push_eq_inplace {T : Type} {r : TypeRep T} (h : Heap) (v : RVec) (x : T)
    (hz : ¬r.size = 0) (hlt : v.len < v.cap) {i : Nat} (hp : v.ptr = Ptr.cell i) :
    RVec.push r h v x =
      (h.update i (writeBytes ((h.lookup i).getD []) (r.size * v.len) (r.enc x)),
        { v with len := v.len + 1 }) := by
  simp [RVec.push, hz, hlt, hp]

theorem push_eq_grow_cell {T : Type} {r : TypeRep T} (h : Heap) (v : RVec) (x : T)
    (hz : ¬r.size = 0) (hge : ¬v.len < v.cap) {i : Nat} (hp : v.ptr = Ptr.cell i) :
    RVec.push r h v x =
      ((h.allocWith (((h.lookup i).getD []).take (r.size * v.len) ++ r.enc x ++
        List.replicate (r.size * max (2 * v.cap) (v.len + 1) - r.size * (v.len + 1)) 0)).1.remove i,
        ⟨Ptr.cell h.next, v.len + 1, max (2 * v.cap) (v.len + 1)⟩) := by
  simp [RVec.push, hz, hge, hp, Heap.bytesAt, Heap.allocWith, Heap.remove]

theorem push_eq_grow_dangling {T : Type} {r : TypeRep T} (h : Heap) (v : RVec) (x : T)
    (hz : ¬r.size = 0) (hge : ¬v.len < v.cap) {a : Nat} (hp : v.ptr = Ptr.dangling a) :
    RVec.push r h v x =
      ((h.allocWith (r.enc x ++
        List.replicate (r.size * max (2 * v.cap) (v.len + 1) - r.size * (v.len + 1)) 0)).1,
        ⟨Ptr.cell h.next, v.len + 1, max (2 * v.cap) (v.len + 1)⟩) := by
  simp [RVec.push, hz, hge, hp, Heap.bytesAt, Heap.allocWith]

/-- Frame property of one mutation step: the freshness counter never
decreases, and a live cell that is not the vector's own backing cell keeps
its contents and is not the result's backing cell either. -/
def pushInv (h : Heap) (v : RVec) (h' : Heap) (v' : RVec) : Prop :=
  h.next ≤ h'.next ∧
  ∀ c : Nat, c < h.next → Ptr.cell c ≠ v.ptr →
    h'.lookup c = h.lookup c ∧ Ptr.cell c ≠ v'.ptr

theorem pushInv_refl (h : Heap) (v : RVec) : pushInv h v h v :=
  ⟨le_refl _, fun _ _ hne => ⟨rfl, hne⟩⟩

theorem pushInv_trans {h h' h'' : Heap} {v v' v'' : RVec}
    (p : pushInv h v h' v') (q : pushInv h' v' h'' v'') : pushInv h v h'' v'' := by
  obtain ⟨a1, a2⟩ := p
  obtain ⟨b1, b2⟩ := q
  refine ⟨le_trans a1 b1, fun c hc hne => ?_⟩
  obtain ⟨p1, p2⟩ := a2 c hc hne
  obtain ⟨q1, q2⟩ := b2 c (lt_of_lt_of_le hc a1) p2
  exact ⟨q1.trans p1, q2⟩

theorem push_ok {T : Type} {r : TypeRep T} {h : Heap} {v : RVec} {l : List T}
    (hwf : h.wf) (hv : vecValid r h v l) (x : T)
    (hb : r.size = 0 → l.length + 1 ≤ usizeMax) :
    (RVec.push r h v x).1.wf ∧
    vecValid r (RVec.push r h v x).1 (RVec.push r h v x).2 (l ++ [x]) ∧
    pushInv h v (RVec.push r h v x).1 (RVec.push r h v x).2 := by
  obtain ⟨h1, h2, h3, h4, h5⟩ := hv
  by_cases hz : r.size = 0
  · rw [push_eq_zst h v x hz]
    obtain ⟨hcap, hptr⟩ := h3 hz
    refine ⟨hwf, ⟨?_, ?_, fun _ => ⟨hcap, hptr⟩, fun hpos => absurd hz (by omega),
      fun hpos => absurd hz (by omega)⟩, le_refl _, fun c hc hne => ⟨rfl, hne⟩⟩
    · simp [h1]
    · have := hb hz
      simp only [RVec.cap]
      omega
  · have hpos : 0 < r.size := Nat.pos_of_ne_zero hz
    by_cases hlt : v.len < v.cap
    · -- in-place write
      have hcap : 0 < v.cap := by omega
      obtain ⟨hs, hlenb, htake⟩ := h5 hpos hcap
      cases hp : v.ptr with
      | dangling a => rw [hp] at hs; simp [Heap.bytesAt] at hs
      | cell i =>
        rw [hp] at hs hlenb htake
        simp only [Heap.bytesAt] at hs hlenb htake
        obtain ⟨ob, hob⟩ := Option.isSome_iff_exists.1 hs
        rw [push_eq_inplace h v x hz hlt hp]
        have hoblen : ((h.lookup i).getD []).length = r.size * v.cap := hlenb
        have hofflen : r.size * v.len + (r.enc x).length ≤ ((h.lookup i).getD []).length := by
          rw [r.enc_length, hoblen, ← Nat.mul_succ]
          exact Nat.mul_le_mul_left r.size hlt
        have hoff : r.size * v.len ≤ ((h.lookup i).getD []).length := by omega
        have hupd : (h.update i (writeBytes ((h.lookup i).getD []) (r.size * v.len)
            (r.enc x))).lookup i = some (writeBytes ((h.lookup i).getD [])
            (r.size * v.len) (r.enc x)) := cellsLookup_update_self hob _
        refine ⟨Heap.wf_update hwf i _, ⟨?_, ?_, fun h0 => absurd h0 hz, ?_, ?_⟩,
          le_refl _, fun c hc hne => ⟨?_, ?_⟩⟩
        · simp [h1]
        · simp only [RVec.cap]
          omega
        · intro _ hc0
          simp only [RVec.cap] at hc0
          omega
        · intro _ _
          simp only [RVec.ptr, hp, Heap.bytesAt, hupd, Option.isSome_some, Option.getD_some]
          refine ⟨trivial, ?_, ?_⟩
          · rw [length_writeBytes hofflen, hoblen]
          · have : r.size * (v.len + 1) = r.size * v.len + (r.enc x).length := by
              rw [r.enc_length, Nat.mul_succ]
            rw [this, take_writeBytes hoff, htake, encodeElems_append,
              encodeElems_singleton]
        · rw [hp] at hne
          have hci : c ≠ i := fun hh => hne (by rw [hh])
          exact cellsLookup_update_ne hci _
        · exact hne
    · -- growth
      cases hp : v.ptr with
      | cell i =>
        have hcap : 0 < v.cap := by
          rcases Nat.eq_zero_or_pos v.cap with hc0 | hc
          · have := h4 hpos hc0
            rw [hp] at this
            simp at this
          · exact hc
        obtain ⟨hs, hlenb, htake⟩ := h5 hpos hcap
        rw [hp] at hs hlenb htake
        simp only [Heap.bytesAt] at hs hlenb htake
        obtain ⟨ob, hob⟩ := Option.isSome_iff_exists.1 hs
        have hi : i < h.next := Heap.lookup_isSome_lt hwf hob
        rw [push_eq_grow_cell h v x hz hlt hp]
        have hles : r.size * (v.len + 1) ≤ r.size * max (2 * v.cap) (v.len + 1) :=
          Nat.mul_le_mul_left r.size (le_max_right _ _)
        have htlen : (((h.lookup i).getD []).take (r.size * v.len)).length = r.size * v.len := by
          rw [List.length_take, hlenb]
          have : r.size * v.len ≤ r.size * v.cap := Nat.mul_le_mul_left r.size h2
          omega
        have hlknew : ((h.allocWith (((h.lookup i).getD []).take (r.size * v.len) ++ r.enc x ++
            List.replicate (r.size * max (2 * v.cap) (v.len + 1) - r.size * (v.len + 1)) 0)).1.remove
            i).lookup h.next = some (((h.lookup i).getD []).take (r.size * v.len) ++ r.enc x ++
            List.replicate (r.size * max (2 * v.cap) (v.len + 1) - r.size * (v.len + 1)) 0) := by
          have hni : h.next ≠ i := by omega
          rw [show ((h.allocWith _).1.remove i).lookup h.next =
            cellsLookup (cellsRemove (h.allocWith _).1.cells i) h.next from rfl]
          rw [cellsLookup_remove_ne hni]
          exact Heap.lookup_allocWith_new h _
        refine ⟨Heap.wf_remove (Heap.wf_allocWith hwf _) i, ⟨?_, ?_,
          fun h0 => absurd h0 hz, ?_, ?_⟩, ?_, fun c hc hne => ⟨?_, ?_⟩⟩
        · simp [h1]
        · simp only [RVec.cap]
          exact le_max_right _ _
        · intro _ hc0
          simp only [RVec.cap] at hc0
          have : v.len + 1 ≤ max (2 * v.cap) (v.len + 1) := le_max_right _ _
          omega
        · intro _ _
          simp only [RVec.ptr, Heap.bytesAt, hlknew, Option.isSome_some, Option.getD_some]
          refine ⟨trivial, ?_, ?_⟩
          · simp only [List.length_append, htlen, r.enc_length, List.length_replicate]
            have : r.size * (v.len + 1) = r.size * v.len + r.size := by rw [Nat.mul_succ]
            omega
          · rw [htake, List.append_assoc]
            have hlen2 : r.size * (v.len + 1) =
                (encodeElems r l).length + (r.enc x).length := by
              rw [length_encodeElems, r.enc_length, ← h1, Nat.mul_succ]
            rw [hlen2, take_len_append, encodeElems_append, encodeElems_singleton]
        · simp only [Heap.remove, Heap.allocWith]
          omega
        · rw [hp] at hne
          have hci : c ≠ i := fun hh => hne (by rw [hh])
          have hcn : c ≠ h.next := by omega
          rw [show ((h.allocWith _).1.remove i).lookup c =
            cellsLookup (cellsRemove (h.allocWith _).1.cells i) c from rfl]
          rw [cellsLookup_remove_ne hci]
          exact Heap.lookup_allocWith_old hcn _
        · simp only [RVec.ptr]
          intro hh
          have : c = h.next := by injection hh
          omega
      | dangling a =>
        have hcap : v.cap = 0 := by
          rcases Nat.eq_zero_or_pos v.cap with hc0 | hc
          · exact hc0
          · obtain ⟨hs, _, _⟩ := h5 hpos hc
            rw [hp] at hs
            simp [Heap.bytesAt] at hs
        have hlen0 : v.len = 0 := by omega
        have hl : l = [] := by
          cases l with
          | nil => rfl
          | cons b bs => rw [hlen0] at h1; simp at h1
        rw [push_eq_grow_dangling h v x hz hlt hp]
        dsimp only
        have hles : r.size * (v.len + 1) ≤ r.size * max (2 * v.cap) (v.len + 1) :=
          Nat.mul_le_mul_left r.size (le_max_right _ _)
        refine ⟨Heap.wf_allocWith hwf _, ⟨?_, ?_,
          fun h0 => absurd h0 hz, ?_, ?_⟩, ?_, fun c hc hne => ⟨?_, ?_⟩⟩
        · simp [h1, hl]
        · simp only [RVec.cap]
          exact le_max_right _ _
        · intro _ hc0
          simp only [RVec.cap] at hc0
          have : v.len + 1 ≤ max (2 * v.cap) (v.len + 1) := le_max_right _ _
          omega
        · intro _ _
          simp only [RVec.ptr, Heap.bytesAt, Heap.lookup_allocWith_new,
            Option.isSome_some, Option.getD_some]
          refine ⟨trivial, ?_, ?_⟩
          · simp only [List.length_append, r.enc_length, List.length_replicate]
            have hC : r.size * (v.len + 1) = r.size := by
              rw [hlen0, Nat.zero_add, Nat.mul_one]
            have hles2 := hles
            rw [hC] at hles2
            rw [hC]
            exact Nat.add_sub_cancel' hles2
          · rw [hl, hlen0]
            have hx : r.size * (0 + 1) = (r.enc x).length := by
              rw [r.enc_length, Nat.zero_add, Nat.mul_one]
            rw [hx]
            simp only [List.nil_append, encodeElems_singleton]
            exact List.take_left _ _
        · simp only [Heap.allocWith]
          omega
        · have hcn : c ≠ h.next := by omega
          exact Heap.lookup_allocWith_old hcn _
        · simp only [RVec.ptr]
          intro hh
          have : c = h.next := by injection hh
          omega

theorem pushMany_ok {T : Type} {r : TypeRep T} (xs : List T) :
    ∀ {h : Heap} {v : RVec} {l : List T}, h.wf → vecValid r h v l →
    (r.size = 0 → l.length + xs.length ≤ usizeMax) →
    (pushMany r h v xs).1.wf ∧
    vecValid r (pushMany r h v xs).1 (pushMany r h v xs).2 (l ++ xs) ∧
    pushInv h v (pushMany r h v xs).1 (pushMany r h v xs).2 := by
  induction xs with
  | nil =>
    intro h v l hwf hv _
    exact ⟨hwf, by simpa [pushMany] using hv, pushInv_refl h v⟩
  | cons x xs ih =>
    intro h v l hwf hv hb
    obtain ⟨w1, w2, w3⟩ := push_ok hwf hv x (by intro h0; have := hb h0; simp at this; omega)
    obtain ⟨u1, u2, u3⟩ := ih w1 w2
      (by intro h0; have := hb h0; simp at this ⊢; omega)
    refine ⟨u1, ?_, pushInv_trans w3 u3⟩
    · simpa [pushMany, List.append_assoc] using u2

theorem mutateSession_ok {T : Type} {r : TypeRep T} {h : Heap} {tv : TypeErasedVec}
    {l : List T} (hwf : h.wf) (hv : tevValid r h tv l) (xs : List T)
    (hb : r.size = 0 → l.length + xs.length ≤ usizeMax) :
    ∃ s : Heap × TypeErasedVec, mutateSession r h tv xs = some s ∧
      s.1.wf ∧ tevValid r s.1 s.2 (l ++ xs) ∧
      pushInv h ⟨tv.ptr, tv.len, tv.cap⟩ s.1 ⟨s.2.ptr, s.2.len, s.2.cap⟩ := by
  obtain ⟨ha, hL, hvec⟩ := hv
  have hgm : tv.get_mut = some (⟨⟨tv.ptr, tv.len, tv.cap⟩, ()⟩, { tv with alloc := none }) := by
    simp [TypeErasedVec.get_mut, ha]
  obtain ⟨w1, w2, w3⟩ := pushMany_ok xs hwf hvec hb
  refine ⟨((pushMany r h ⟨tv.ptr, tv.len, tv.cap⟩ xs).1,
    VecMut.drop ⟨(pushMany r h ⟨tv.ptr, tv.len, tv.cap⟩ xs).2, ()⟩ r), ?_, w1, ?_, ?_⟩
  · simp [mutateSession, hgm]
  · exact ⟨rfl, rfl, w2⟩
  · exact w3


theorem clone_ok {T : Type} {r : TypeRep T} {h : Heap} {tv : TypeErasedVec} {l : List T}
    (hwf : h.wf) (hv : tevValid r h tv l) :
    ∃ h₁ tv' call, tv.clone h = some (h₁, tv', call) ∧
      h₁.wf ∧
      tv'.len = tv.len ∧ tv'.cap = tv.cap ∧ tv'.layout = tv.layout ∧
      h.next ≤ h₁.next ∧
      (∀ c : Nat, c < h.next → h₁.lookup c = h.lookup c) ∧
      tevValid r h₁ tv l ∧ tevValid r h₁ tv' l ∧
      (tv.memory.isSome = true → tv'.ptr ≠ tv.ptr) ∧
      (∀ c : Nat, tv'.ptr = Ptr.cell c → h.next ≤ c) := by
  obtain ⟨ha, hL, hvec⟩ := hv
  obtain ⟨h1, h2, h3, h4, h5⟩ := hvec
  simp only [RVec.len, RVec.cap, RVec.ptr] at h1 h2 h3 h4 h5
  have hnl : tv.is_leaked = false := by simp [TypeErasedVec.is_leaked, ha]
  cases hm : tv.memory with
  | none =>
    have hcases : tv.layout.size = 0 ∨ tv.cap = 0 := by
      by_contra hcon
      push_neg at hcon
      simp [TypeErasedVec.memory, Nat.pos_of_ne_zero hcon.1,
        Nat.pos_of_ne_zero hcon.2] at hm
    have hrcases : r.size = 0 ∨ tv.cap = 0 := by
      rcases hcases with hz | hc0
      · left
        rw [hL] at hz
        exact hz
      · right
        exact hc0
    have hclone : tv.clone h =
        some (h, ⟨some (), Ptr.dangling tv.layout.align, tv.len, tv.cap, tv.layout⟩, none) := by
      simp [TypeErasedVec.clone, hnl, hm]
    have hptr' : Ptr.dangling tv.layout.align = Ptr.dangling r.align := by
      rw [hL]
    have hvalid' : vecValid r h ⟨Ptr.dangling tv.layout.align, tv.len, tv.cap⟩ l := by
      refine ⟨h1, h2, ?_, ?_, ?_⟩
      · intro hz
        exact ⟨(h3 hz).1, hptr'⟩
      · intro hpos hc0
        exact hptr'
      · intro hpos hcpos
        rcases hrcases with hz | hc0
        · omega
        · have hcpos2 : (0 : Nat) < tv.cap := hcpos
          omega
    refine ⟨h, _, none, hclone, hwf, rfl, rfl, rfl, le_refl _, fun c _ => rfl,
      ⟨ha, hL, h1, h2, h3, h4, h5⟩, ⟨rfl, hL, hvalid'⟩, ?_, ?_⟩
    · intro hsome
      simp at hsome
    · intro c hc
      have hc2 : Ptr.dangling tv.layout.align = Ptr.cell c := hc
      simp at hc2
  | some m =>
    have hmm : 0 < tv.layout.size ∧ 0 < tv.cap := by
      by_contra hcon
      simp [TypeErasedVec.memory, hcon] at hm
    have hszpos : 0 < r.size := by
      have hp1 := hmm.1
      rw [hL] at hp1
      exact hp1
    obtain ⟨hs, hlenb, htake⟩ := h5 hszpos hmm.2
    obtain ⟨src, hsrc0⟩ := Option.isSome_iff_exists.1 hs
    obtain ⟨i, hi⟩ : ∃ i, tv.ptr = Ptr.cell i := by
      cases hp : tv.ptr with
      | dangling a =>
        rw [hp] at hsrc0
        simp [Heap.bytesAt] at hsrc0
      | cell i => exact ⟨i, rfl⟩
    rw [hi] at hsrc0
    simp only [Heap.bytesAt] at hsrc0
    have hilt : i < h.next := Heap.lookup_isSome_lt hwf hsrc0
    have hmsize : m.size = tv.layout.size * tv.cap := by
      simp only [TypeErasedVec.memory, if_pos hmm] at hm
      cases hm
      rfl
    have hsrcbytes : (h.bytesAt tv.ptr).getD [] = src := by
      rw [hi]
      simp [Heap.bytesAt, hsrc0]
    have hclone : tv.clone h =
        some ((h.allocWith (src.take (tv.len * tv.layout.size) ++
          List.replicate (m.size - tv.len * tv.layout.size) 0)).1,
          ⟨some (), Ptr.cell h.next, tv.len, tv.cap, tv.layout⟩,
          some (h.next, m)) := by
      simp [TypeErasedVec.clone, hnl, hm, hi, Heap.bytesAt, hsrc0, Heap.allocWith]
    have hsrclen : src.length = r.size * tv.cap := by
      rw [hsrcbytes] at hlenb
      exact hlenb
    have htake2 : src.take (r.size * tv.len) = encodeElems r l := by
      rw [hsrcbytes] at htake
      exact htake
    have hsz : tv.layout.size = r.size := by rw [hL]
    have hlecap : r.size * tv.len ≤ r.size * tv.cap := Nat.mul_le_mul_left r.size h2
    have hmul : tv.len * tv.layout.size = r.size * tv.len := by
      rw [hsz, Nat.mul_comm]
    have htakelen : (src.take (tv.len * tv.layout.size)).length = r.size * tv.len := by
      rw [hmul, List.length_take, hsrclen]
      omega
    have hvalid1 : vecValid r (h.allocWith (src.take (tv.len * tv.layout.size) ++
        List.replicate (m.size - tv.len * tv.layout.size) 0)).1
        ⟨tv.ptr, tv.len, tv.cap⟩ l := by
      refine ⟨h1, h2, h3, h4, ?_⟩
      intro _ _
      have hlk : ((h.allocWith (src.take (tv.len * tv.layout.size) ++
          List.replicate (m.size - tv.len * tv.layout.size) 0)).1).bytesAt tv.ptr =
          some src := by
        rw [hi]
        simp only [Heap.bytesAt]
        rw [Heap.lookup_allocWith_old (by omega : i ≠ h.next)]
        exact hsrc0
      rw [show ((⟨tv.ptr, tv.len, tv.cap⟩ : RVec)).ptr = tv.ptr from rfl, hlk]
      simp only [Option.isSome_some, Option.getD_some]
      exact ⟨trivial, hsrclen, htake2⟩
    have hvalid2 : vecValid r (h.allocWith (src.take (tv.len * tv.layout.size) ++
        List.replicate (m.size - tv.len * tv.layout.size) 0)).1
        ⟨Ptr.cell h.next, tv.len, tv.cap⟩ l := by
      refine ⟨h1, h2, ?_, ?_, ?_⟩
      · intro hz
        omega
      · intro _ hc0
        have hc02 : tv.cap = 0 := hc0
        omega
      · intro _ _
        rw [show ((⟨Ptr.cell h.next, tv.len, tv.cap⟩ : RVec)).ptr = Ptr.cell h.next from rfl]
        simp only [Heap.bytesAt, Heap.lookup_allocWith_new, Option.isSome_some,
          Option.getD_some]
        refine ⟨trivial, ?_, ?_⟩
        · show (List.take (tv.len * tv.layout.size) src ++
            List.replicate (m.size - tv.len * tv.layout.size) 0).length = r.size * tv.cap
          have hrep : m.size - tv.len * tv.layout.size = r.size * tv.cap - r.size * tv.len := by
            rw [hmsize, hsz, Nat.mul_comm tv.len r.size]
          rw [List.length_append, List.length_replicate, htakelen, hrep]
          exact Nat.add_sub_cancel' hlecap
        · show List.take (r.size * tv.len) (List.take (tv.len * tv.layout.size) src ++
            List.replicate (m.size - tv.len * tv.layout.size) 0) = encodeElems r l
          have htl : r.size * tv.len = (src.take (tv.len * tv.layout.size)).length :=
            htakelen.symm
          rw [htl, List.take_left, hmul, htake2]
    refine ⟨_, _, _, hclone, Heap.wf_allocWith hwf _, rfl, rfl, rfl, ?_, ?_, ?_, ?_, ?_, ?_⟩
    · simp [Heap.allocWith]
    · intro c hc
      exact Heap.lookup_allocWith_old (by omega) _
    · exact ⟨ha, hL, hvalid1⟩
    · exact ⟨rfl, hL, hvalid2⟩
    · intro _
      rw [hi]
      intro hcon
      have hcon2 : Ptr.cell h.next = Ptr.cell i := hcon
      have : h.next = i := by injection hcon2
      omega
    · intro c hc
      have hc2 : Ptr.cell h.next = Ptr.cell c := hc
      have : h.next = c := by injection hc2
      omega

/-- TypeRep of a one-byte `Copy` element type such as `u8`: a value is its
own single-byte image. -/
def byteRep : TypeRep Nat where
  size := 1
  align := 1
  enc := fun n => [n]
  dec := fun bs =>
    match bs with
    | [b] => some b
    | _ => none
  enc_length := fun _ => rfl
  dec_enc := fun _ => rfl

/-- TypeRep of a zero-sized `Copy` element type such as `()`. -/
def unitRep : TypeRep Unit where
  size := 0
  align := 1
  enc := fun _ => []
  dec := fun _ => some ()
  enc_length := fun _ => rfl
  dec_enc := fun t => by cases t; rfl

/-- The heap of a freshly started process: no allocations. -/
def emptyHeap : Heap := ⟨[], 0⟩

/-- C1: erasing a typed vector with `from_vec` and reconstituting it with
`into_vec` returns a vector with the very same raw parts — the same
elements, the same length and the same capacity.  Neither function
touches the heap, so no reallocation occurs on this path. -/
theorem c1_roundtrip {T : Type} (r : TypeRep T) (h : Heap) (v : RVec) (l : List T)
    (hv : vecValid r h v l) :
    ∃ shell, (TypeErasedVec.from_vec r v).into_vec = some (v, (), shell) ∧
      vecElems r h v = some l ∧ v.len = l.length := by
  exact ⟨_, rfl, vecElems_of_valid hv, hv.1⟩

/-- C1 witness: a concrete two-element byte vector with spare capacity
round-trips with elements `[7, 9]`, length `2` and capacity `3`. -/
theorem c1_roundtrip_witness :
    ∃ shell, (TypeErasedVec.from_vec byteRep ⟨Ptr.cell 0, 2, 3⟩).into_vec =
      some (⟨Ptr.cell 0, 2, 3⟩, (), shell) ∧
      vecElems byteRep ⟨[(0, [7, 9, 0])], 1⟩ ⟨Ptr.cell 0, 2, 3⟩ = some [7, 9] ∧
      (⟨Ptr.cell 0, 2, 3⟩ : RVec).len = ([7, 9] : List Nat).length :=
  c1_roundtrip byteRep ⟨[(0, [7, 9, 0])], 1⟩ ⟨Ptr.cell 0, 2, 3⟩ [7, 9] (by decide)

/-- C2: every public operation on a leaked buffer other than `is_leaked` —
`get`, `get_mut`, `get_ref`, `allocator`, `clone` and `into_vec` — panics
(modelled as `none`) instead of operating on the inconsistent state. -/
theorem c2_leaked_all_panic {T : Type} (r : TypeRep T) (h : Heap) (tv : TypeErasedVec)
    (hleak : tv.is_leaked = true) :
    tv.get r h = none ∧ tv.get_mut = none ∧ tv.get_ref = none ∧
    tv.allocator = none ∧ tv.clone h = none ∧ tv.into_vec = none := by
  have ha : tv.alloc = none := by
    simpa [TypeErasedVec.is_leaked, Option.isNone_iff_eq_none] using hleak
  refine ⟨?_, ?_, ?_, ?_, ?_, ?_⟩ <;>
    simp [TypeErasedVec.get, TypeErasedVec.get_mut, TypeErasedVec.get_ref,
      TypeErasedVec.allocator, TypeErasedVec.clone, TypeErasedVec.into_vec,
      TypeErasedVec.is_leaked, ha]

/-- A concrete leaked buffer: the state `get_mut` leaves behind. -/
def leakedTV : TypeErasedVec := ⟨none, Ptr.dangling 1, 0, 0, ⟨1, 1⟩⟩

/-- C2 witness: on the concrete leaked buffer every listed operation
returns `none`. -/
theorem c2_leaked_all_panic_witness :
    leakedTV.get byteRep emptyHeap = none ∧ leakedTV.get_mut = none ∧
    leakedTV.get_ref = none ∧ leakedTV.allocator = none ∧
    leakedTV.clone emptyHeap = none ∧ leakedTV.into_vec = none :=
  c2_leaked_all_panic byteRep emptyHeap leakedTV (by decide)

/-- C3: `get_mut` moves the raw parts (pointer, length, capacity) and the
allocator into the returned `VecMut` and leaves the buffer with
`alloc = None` (`is_leaked` true); dropping the `VecMut` writes the
possibly grown, shrunk or reallocated vector's raw parts back through
`from_vec` and restores `alloc` to `Some` (`is_leaked` false again). -/
theorem c3_get_mut_lifecycle {T : Type} (r : TypeRep T) (tv : TypeErasedVec)
    (hnl : tv.is_leaked = false) :
    ∃ vm tv₁, tv.get_mut = some (vm, tv₁) ∧
      vm.vec = (⟨tv.ptr, tv.len, tv.cap⟩ : RVec) ∧
      tv₁.alloc = none ∧ tv₁.is_leaked = true ∧
      ∀ v' : RVec, (VecMut.drop ⟨v', vm.alloc⟩ r).ptr = v'.ptr ∧
        (VecMut.drop ⟨v', vm.alloc⟩ r).len = v'.len ∧
        (VecMut.drop ⟨v', vm.alloc⟩ r).cap = v'.cap ∧
        (VecMut.drop ⟨v', vm.alloc⟩ r).alloc = some () ∧
        (VecMut.drop ⟨v', vm.alloc⟩ r).is_leaked = false := by
  cases halloc : tv.alloc with
  | none => simp [TypeErasedVec.is_leaked, halloc] at hnl
  | some a =>
    refine ⟨⟨⟨tv.ptr, tv.len, tv.cap⟩, a⟩, { tv with alloc := none }, ?_, rfl, rfl, rfl, ?_⟩
    · simp [TypeErasedVec.get_mut, halloc]
    · intro v'
      exact ⟨rfl, rfl, rfl, rfl, rfl⟩

/-- A concrete non-leaked buffer for the witnesses: a byte buffer with
one element. -/
def sampleTV : TypeErasedVec := TypeErasedVec.from_vec byteRep ⟨Ptr.cell 0, 1, 1⟩

/-- C3 witness: the lifecycle holds at the concrete non-leaked buffer. -/
theorem c3_get_mut_lifecycle_witness :
    ∃ vm tv₁, sampleTV.get_mut = some (vm, tv₁) ∧
      vm.vec = (⟨sampleTV.ptr, sampleTV.len, sampleTV.cap⟩ : RVec) ∧
      tv₁.alloc = none ∧ tv₁.is_leaked = true ∧
      ∀ v' : RVec, (VecMut.drop ⟨v', vm.alloc⟩ byteRep).ptr = v'.ptr ∧
        (VecMut.drop ⟨v', vm.alloc⟩ byteRep).len = v'.len ∧
        (VecMut.drop ⟨v', vm.alloc⟩ byteRep).cap = v'.cap ∧
        (VecMut.drop ⟨v', vm.alloc⟩ byteRep).alloc = some () ∧
        (VecMut.drop ⟨v', vm.alloc⟩ byteRep).is_leaked = false :=
  c3_get_mut_lifecycle byteRep sampleTV (by decide)

/-- C5: `into_vec` transfers ownership to the returned `Vec` and disarms
the buffer's destructor: the forgotten shell left behind has its
allocator taken out, so dropping it performs no `deallocate` call and
leaves the heap unchanged — the allocation is freed at most once. -/
theorem c5_no_double_free (tv : TypeErasedVec) (h' : Heap)
    (hnl : tv.is_leaked = false) :
    ∃ v a shell, tv.into_vec = some (v, a, shell) ∧
      shell.drop h' = (h', none) := by
  cases halloc : tv.alloc with
  | none => simp [TypeErasedVec.is_leaked, halloc] at hnl
  | some a =>
    refine ⟨⟨tv.ptr, tv.len, tv.cap⟩, a, { tv with alloc := none }, ?_, ?_⟩
    · simp [TypeErasedVec.into_vec, halloc]
    · cases hm : ({ tv with alloc := none } : TypeErasedVec).memory with
      | none => simp [TypeErasedVec.drop, hm]
      | some m => simp [TypeErasedVec.drop, hm]

/-- C5 witness: at the concrete buffer, the shell left by `into_vec`
deallocates nothing. -/
theorem c5_no_double_free_witness :
    ∃ v a shell, sampleTV.into_vec = some (v, a, shell) ∧
      shell.drop ⟨[(0, [7])], 1⟩ = (⟨[(0, [7])], 1⟩, none) :=
  c5_no_double_free sampleTV ⟨[(0, [7])], 1⟩ (by decide)

/-- ZST buffer reached through the public constructor
`TypeErasedVec::new::<()>()`: per the standard library's guarantees the
underlying empty `Vec<()>` reports capacity `usize::MAX`. -/
def zstTV : TypeErasedVec := TypeErasedVec.new unitRep

/-- C6 counterexample: the claim asserts that dropping EVERY non-leaked
buffer with `capacity > 0` makes a `deallocate` call with the scaled
layout.  `TypeErasedVec::new::<()>()` is not leaked and has capacity
`usize::MAX > 0`, yet its `memory()` is `None` (element size is `0`), so
its drop makes no `deallocate` call at all. -/
theorem c6_counterexample :
    zstTV.is_leaked = false ∧ 0 < zstTV.cap ∧
    (zstTV.drop emptyHeap).2 = none ∧ (zstTV.drop emptyHeap).1 = emptyHeap := by
  refine ⟨rfl, ?_, rfl, rfl⟩
  show 0 < usizeMax
  decide

/-- C6 (amended): dropping a non-leaked buffer whose capacity AND element
size are both positive releases the allocation through its allocator
using the layout of size `elementLayout.size * capacity` with the element
alignment; when the capacity is zero — or the element size is zero — no
deallocation call is made. -/
theorem c6_drop_dealloc (tv : TypeErasedVec) (h : Heap) :
    (tv.is_leaked = false → 0 < tv.cap → 0 < tv.layout.size →
      (tv.drop h).2 = some (tv.ptr,
        { size := tv.layout.size * tv.cap, align := tv.layout.align })) ∧
    (tv.cap = 0 ∨ tv.layout.size = 0 →
      (tv.drop h).2 = none ∧ (tv.drop h).1 = h) := by
  constructor
  · intro hnl hcap hsz
    have ha : ∃ a, tv.alloc = some a := by
      cases halloc : tv.alloc with
      | none => simp [TypeErasedVec.is_leaked, halloc] at hnl
      | some a => exact ⟨a, rfl⟩
    obtain ⟨a, ha⟩ := ha
    have hm : tv.memory = some ⟨tv.layout.size * tv.cap, tv.layout.align⟩ := by
      simp [TypeErasedVec.memory, hsz, hcap]
    cases hp : tv.ptr with
    | dangling al => simp [TypeErasedVec.drop, hm, ha, hp]
    | cell i => simp [TypeErasedVec.drop, hm, ha, hp]
  · intro hor
    have hm : tv.memory = none := by
      rcases hor with hc | hs
      · simp [TypeErasedVec.memory, hc]
      · simp [TypeErasedVec.memory, hs]
    simp [TypeErasedVec.drop, hm]

/-- C6 witness: dropping the concrete one-byte-element buffer (capacity
`1`, element size `1`) records a `deallocate` call of the one-byte layout
at its pointer, and a capacity-zero buffer drops without deallocating. -/
theorem c6_drop_dealloc_witness :
    (sampleTV.drop ⟨[(0, [7])], 1⟩).2 =
      some (sampleTV.ptr, { size := 1, align := 1 }) ∧
    ((TypeErasedVec.new byteRep).drop emptyHeap).2 = none :=
  ⟨(c6_drop_dealloc sampleTV ⟨[(0, [7])], 1⟩).1 (by decide) (by decide) (by decide),
    ((c6_drop_dealloc (TypeErasedVec.new byteRep) emptyHeap).2 (Or.inl (by decide))).1⟩

/-- C7 counterexample: the claim asserts `capacity == n` for EVERY element
type; for the zero-sized `()` with requested capacity `5` the fresh
buffer's read view reports capacity `usize::MAX`, not `5`. -/
theorem c7_counterexample :
    (TypeErasedVec.with_capacity unitRep emptyHeap 5).2.get_ref =
      some ⟨Ptr.dangling 1, 0, usizeMax⟩ ∧ usizeMax ≠ 5 :=
  ⟨rfl, by decide⟩

/-- C7 (amended): for every element type of positive size and every
requested capacity `n`, a fresh buffer built by `with_capacity` (equal by
definition to `with_capacity_in` with the global allocator) reports
`length == 0` and `capacity == n` through both its read view (`get_ref`)
and its mutable view (`get_mut`); a zero-sized element type instead
reports the documented `usize::MAX` capacity. -/
theorem c7_with_capacity {T : Type} (r : TypeRep T) (h : Heap) (n : Nat)
    (hpos : 0 < r.size) :
    TypeErasedVec.with_capacity r h n = TypeErasedVec.with_capacity_in r h n ∧
    ∃ w, (TypeErasedVec.with_capacity r h n).2.get_ref = some w ∧
      w.len = 0 ∧ w.cap = n ∧
    ∃ vm tv₁, (TypeErasedVec.with_capacity r h n).2.get_mut = some (vm, tv₁) ∧
      vm.vec.len = 0 ∧ vm.vec.cap = n := by
  have hz : ¬r.size = 0 := by omega
  have hvlc : (vecWithCapacity r h n).2.len = 0 ∧ (vecWithCapacity r h n).2.cap = n := by
    by_cases hn : n = 0 <;> simp [vecWithCapacity, hz, hn, Heap.allocWith]
  obtain ⟨hl, hc⟩ := hvlc
  refine ⟨rfl, ⟨(vecWithCapacity r h n).2.ptr, (vecWithCapacity r h n).2.len,
    (vecWithCapacity r h n).2.cap⟩, rfl, hl, hc,
    ⟨⟨(vecWithCapacity r h n).2.ptr, (vecWithCapacity r h n).2.len,
      (vecWithCapacity r h n).2.cap⟩, ()⟩, _, rfl, hl, hc⟩

/-- C7 witness: a fresh byte buffer with requested capacity `5` reports
length `0` and capacity `5` through both views. -/
theorem c7_with_capacity_witness :
    TypeErasedVec.with_capacity byteRep emptyHeap 5 =
      TypeErasedVec.with_capacity_in byteRep emptyHeap 5 ∧
    ∃ w, (TypeErasedVec.with_capacity byteRep emptyHeap 5).2.get_ref = some w ∧
      w.len = 0 ∧ w.cap = 5 ∧
    ∃ vm tv₁, (TypeErasedVec.with_capacity byteRep emptyHeap 5).2.get_mut =
        some (vm, tv₁) ∧
      vm.vec.len = 0 ∧ vm.vec.cap = 5 :=
  c7_with_capacity byteRep emptyHeap 5 (by decide)

/-- C9: the stored element layout never changes over the container's
lifetime.  `get` and `get_ref` take the buffer by shared reference and
return no modified buffer (they are pure in the model); the buffer left
leaked by `get_mut`, the buffer written back by a full `VecMut`-drop
cycle with the matching element type, and the buffer produced by `clone`
all carry a layout still equal to `Layout::new::<T>()`. -/
theorem c9_layout_immutable {T : Type} (r : TypeRep T) (h : Heap) (tv : TypeErasedVec)
    (hL : tv.layout = { size := r.size, align := r.align }) :
    (∀ vm tv₁, tv.get_mut = some (vm, tv₁) →
      tv₁.layout = { size := r.size, align := r.align } ∧
      ∀ v' : RVec, (VecMut.drop ⟨v', vm.alloc⟩ r).layout =
        { size := r.size, align := r.align }) ∧
    (∀ h₁ tv' call, tv.clone h = some (h₁, tv', call) →
      tv'.layout = { size := r.size, align := r.align }) := by
  constructor
  · intro vm tv₁ hgm
    cases halloc : tv.alloc with
    | none => simp [TypeErasedVec.get_mut, halloc] at hgm
    | some a =>
      simp only [TypeErasedVec.get_mut, halloc, Option.some.injEq] at hgm
      have htv₁ : ({ tv with alloc := none } : TypeErasedVec) = tv₁ :=
        congrArg Prod.snd hgm
      constructor
      · rw [← htv₁]
        exact hL
      · intro v'
        rfl
  · intro h₁ tv' call hcl
    by_cases hleak : tv.is_leaked
    · simp [TypeErasedVec.clone, hleak] at hcl
    · simp only [Bool.not_eq_true] at hleak
      cases hm : tv.memory with
      | none =>
        simp only [TypeErasedVec.clone, hleak, hm, Bool.false_eq_true, if_false,
          Option.some.injEq] at hcl
        injection hcl with e1 e23
        injection e23 with e2 e3
        rw [← e2]
        exact hL
      | some m =>
        simp only [TypeErasedVec.clone, hleak, hm, Bool.false_eq_true, if_false,
          Option.some.injEq] at hcl
        injection hcl with e1 e23
        injection e23 with e2 e3
        rw [← e2]
        exact hL

/-- C9 witness: the layout facts hold at the concrete byte buffer. -/
theorem c9_layout_immutable_witness :
    (∀ vm tv₁, sampleTV.get_mut = some (vm, tv₁) →
      tv₁.layout = { size := 1, align := 1 } ∧
      ∀ v' : RVec, (VecMut.drop ⟨v', vm.alloc⟩ byteRep).layout =
        { size := 1, align := 1 }) ∧
    (∀ h₁ tv' call, sampleTV.clone ⟨[(0, [7])], 1⟩ = some (h₁, tv', call) →
      tv'.layout = { size := 1, align := 1 }) :=
  c9_layout_immutable byteRep ⟨[(0, [7])], 1⟩ sampleTV (by decide)

/-- C10: with a zero-sized element layout the `memory()` helper reports no
backing allocation, so dropping the buffer never calls `deallocate` (and
leaves the heap unchanged) and cloning a non-leaked one never calls
`allocate` — even when the capacity is positive. -/
theorem c10_zst_no_alloc_dealloc (tv : TypeErasedVec) (h : Heap)
    (hz : tv.layout.size = 0) :
    (tv.drop h).1 = h ∧ (tv.drop h).2 = none ∧
    (tv.is_leaked = false →
      ∃ tv', tv.clone h = some (h, tv', none)) := by
  have hm : tv.memory = none := by simp [TypeErasedVec.memory, hz]
  refine ⟨?_, ?_, ?_⟩
  · simp [TypeErasedVec.drop, hm]
  · simp [TypeErasedVec.drop, hm]
  · intro hnl
    refine ⟨⟨some (), Ptr.dangling tv.layout.align, tv.len, tv.cap, tv.layout⟩, ?_⟩
    simp [TypeErasedVec.clone, hnl, hm]

/-- C10 witness: the ZST buffer `TypeErasedVec::new::<()>()` has positive
capacity, dropping it deallocates nothing, and cloning it allocates
nothing. -/
theorem c10_zst_no_alloc_dealloc_witness :
    0 < zstTV.cap ∧
    ((zstTV.drop emptyHeap).1 = emptyHeap ∧ (zstTV.drop emptyHeap).2 = none ∧
      (zstTV.is_leaked = false →
        ∃ tv', zstTV.clone emptyHeap = some (emptyHeap, tv', none))) :=
  ⟨by show 0 < usizeMax; decide,
    c10_zst_no_alloc_dealloc zstTV emptyHeap (by decide)⟩

/-- C4: for a buffer freshly constructed for element type `T` (it holds no
elements yet), pushing any sequence `xs` through the `VecMut` returned by
`get_mut`, dropping the `VecMut`, and then calling `get` yields exactly
`xs` in insertion order — including when the pushes force capacity growth
and reallocation, since `xs` is arbitrary.  (The bound for zero-sized
elements reflects that a 64-bit length cannot exceed `usize::MAX`.) -/
theorem c4_mutation_visibility {T : Type} (r : TypeRep T) (h : Heap)
    (tv : TypeErasedVec) (xs : List T) (hwf : h.wf) (hv : tevValid r h tv [])
    (hb : r.size = 0 → xs.length ≤ usizeMax) :
    ∃ s : Heap × TypeErasedVec, mutateSession r h tv xs = some s ∧
      s.2.get r s.1 = some xs := by
  obtain ⟨s, hs, hwf', hval, hinv⟩ := mutateSession_ok hwf hv xs
    (by intro h0; simpa using hb h0)
  exact ⟨s, hs, get_of_valid hval⟩

/-- C4 witness: a fresh byte buffer with capacity `1`; pushing `[3, 5, 7]`
forces two capacity growths (1 → 2 → 4) and reallocation, and `get` reads
back exactly `[3, 5, 7]`. -/
theorem c4_mutation_visibility_witness :
    ((TypeErasedVec.with_capacity byteRep emptyHeap 1).1.wf ∧
      tevValid byteRep (TypeErasedVec.with_capacity byteRep emptyHeap 1).1
        (TypeErasedVec.with_capacity byteRep emptyHeap 1).2 []) ∧
    ∃ s : Heap × TypeErasedVec,
      mutateSession byteRep (TypeErasedVec.with_capacity byteRep emptyHeap 1).1
        (TypeErasedVec.with_capacity byteRep emptyHeap 1).2 [3, 5, 7] = some s ∧
      s.2.get byteRep s.1 = some [3, 5, 7] :=
  ⟨⟨by decide, by decide⟩,
    c4_mutation_visibility byteRep (TypeErasedVec.with_capacity byteRep emptyHeap 1).1
      (TypeErasedVec.with_capacity byteRep emptyHeap 1).2 [3, 5, 7]
      (by decide) (by decide) (by decide)⟩

/-- C8: cloning a non-leaked buffer of contents `l` yields a buffer with
equal length, capacity and layout whose backing allocation is its own and
fresh (distinct pointer whenever there is a backing allocation at all)
and whose read view equals the original's; afterwards, running a full
mutable session (`get_mut`, pushes, `VecMut` drop) on either buffer
leaves the other's contents unchanged at `l`. -/
theorem c8_clone_independence {T : Type} (r : TypeRep T) (h : Heap)
    (tv : TypeErasedVec) (l xs : List T) (hwf : h.wf) (hv : tevValid r h tv l)
    (hb : r.size = 0 → l.length + xs.length ≤ usizeMax) :
    ∃ h₁ tv' call, tv.clone h = some (h₁, tv', call) ∧
      tv'.len = tv.len ∧ tv'.cap = tv.cap ∧ tv'.layout = tv.layout ∧
      tv'.get r h₁ = some l ∧ tv.get r h₁ = some l ∧
      (tv.memory.isSome = true → tv'.ptr ≠ tv.ptr) ∧
      (∀ s : Heap × TypeErasedVec, mutateSession r h₁ tv' xs = some s →
        tv.get r s.1 = some l) ∧
      (∀ s : Heap × TypeErasedVec, mutateSession r h₁ tv xs = some s →
        tv'.get r s.1 = some l) := by
  obtain ⟨h₁, tv', call, hcl, hwf₁, hlen, hcap, hlay, hnext, hframe, hvtv, hvtv',
    hfreshne, hfresh⟩ := clone_ok hwf hv
  have hlive : ∀ (hh : Heap) (u : TypeErasedVec), tevValid r hh u l → ∀ c : Nat,
      u.ptr = Ptr.cell c → ∃ b, hh.lookup c = some b := by
    intro hh u hu c hc
    obtain ⟨-, huL, hu1, hu2, hu3, hu4, hu5⟩ := hu
    by_cases hz : r.size = 0
    · have := (hu3 hz).2
      rw [hc] at this
      cases this
    · have hpos : 0 < r.size := Nat.pos_of_ne_zero hz
      by_cases hc0 : u.cap = 0
      · have := hu4 hpos hc0
        rw [hc] at this
        cases this
      · obtain ⟨hsome, -, -⟩ := hu5 hpos (Nat.pos_of_ne_zero hc0)
        rw [hc] at hsome
        simp only [Heap.bytesAt] at hsome
        exact Option.isSome_iff_exists.1 hsome
  refine ⟨h₁, tv', call, hcl, hlen, hcap, hlay, get_of_valid hvtv', get_of_valid hvtv,
    hfreshne, ?_, ?_⟩
  · -- mutate the clone, read the original
    intro s hs
    obtain ⟨s0, hs0, hwf0, hval0, hinv0⟩ := mutateSession_ok hwf₁ hvtv' xs hb
    rw [hs0] at hs
    have hseq : s = s0 := (Option.some.inj hs).symm
    rw [hseq]
    have hget : tv.get r s0.1 = tv.get r h₁ := by
      apply get_frame
      intro c hc
      obtain ⟨b1, hb1⟩ := hlive h₁ tv hvtv c hc
      have hclt : c < h₁.next := Heap.lookup_isSome_lt hwf₁ hb1
      have hne : Ptr.cell c ≠ tv'.ptr := by
        intro he
        obtain ⟨b2, hb2⟩ := hlive h tv hv c hc
        have h1lt : c < h.next := Heap.lookup_isSome_lt hwf hb2
        have h2le : h.next ≤ c := hfresh c he.symm
        omega
      exact (hinv0.2 c hclt hne).1
    rw [hget]
    exact get_of_valid hvtv
  · -- mutate the original, read the clone
    intro s hs
    obtain ⟨s0, hs0, hwf0, hval0, hinv0⟩ := mutateSession_ok hwf₁ hvtv xs hb
    rw [hs0] at hs
    have hseq : s = s0 := (Option.some.inj hs).symm
    rw [hseq]
    have hget : tv'.get r s0.1 = tv'.get r h₁ := by
      apply get_frame
      intro c hc
      obtain ⟨b1, hb1⟩ := hlive h₁ tv' hvtv' c hc
      have hclt : c < h₁.next := Heap.lookup_isSome_lt hwf₁ hb1
      have hne : Ptr.cell c ≠ tv.ptr := by
        intro he
        obtain ⟨b2, hb2⟩ := hlive h tv hv c he.symm
        have h1lt : c < h.next := Heap.lookup_isSome_lt hwf hb2
        have h2le : h.next ≤ c := hfresh c hc
        omega
      exact (hinv0.2 c hclt hne).1
    rw [hget]
    exact get_of_valid hvtv'

/-- C8 witness: cloning a concrete one-element byte buffer holding `[7]`
and then pushing `[9]` through either buffer's mutable view leaves the
other still reading `[7]`. -/
theorem c8_clone_independence_witness :
    ∃ h₁ tv' call, sampleTV.clone ⟨[(0, [7])], 1⟩ = some (h₁, tv', call) ∧
      tv'.len = sampleTV.len ∧ tv'.cap = sampleTV.cap ∧ tv'.layout = sampleTV.layout ∧
      tv'.get byteRep h₁ = some [7] ∧ sampleTV.get byteRep h₁ = some [7] ∧
      (sampleTV.memory.isSome = true → tv'.ptr ≠ sampleTV.ptr) ∧
      (∀ s : Heap × TypeErasedVec, mutateSession byteRep h₁ tv' [9] = some s →
        sampleTV.get byteRep s.1 = some [7]) ∧
      (∀ s : Heap × TypeErasedVec, mutateSession byteRep h₁ sampleTV [9] = some s →
        tv'.get byteRep s.1 = some [7]) :=
  c8_clone_independence byteRep ⟨[(0, [7])], 1⟩ sampleTV [7] [9]
    (by decide) (by decide) (by decide)
